import Mathlib

/-!
Verification of the ranking / recommendation / moderation core of the
social-media backend (files `ml_algorithms.py`, `ml_models.py`, `app.py`).

Python dicts are modelled as association lists in insertion order
(CPython dicts preserve insertion order; updating an existing key keeps
its position).  Python floats are modelled as exact rationals `ℚ`,
integers as `ℕ`/`ℤ`, text as `List Char`.  `sorted(..., reverse=True)`
(a stable descending sort) is modelled by `List.insertionSort` with a
non-strict "greater or equal on the key" relation, which is stable in
exactly the same way.
-/

namespace SM

/-- Lookup in an association list modelling a Python dict
(`d.get(k)` / `d[k]`); keys are unique by construction. -/
def dictGet {K V : Type} [DecidableEq K] : List (K × V) → K → Option V
  | [], _ => none
  | (k, v) :: rest, q => if q = k then some v else dictGet rest q

/-- Update `d[k] = v` on a Python dict: an existing key keeps its
position, a new key is appended at the end (CPython insertion order). -/
def dictSet {K V : Type} [DecidableEq K] : List (K × V) → K → V → List (K × V)
  | [], k, v => [(k, v)]
  | (k', v') :: rest, k, v =>
    if k = k' then (k, v) :: rest else (k', v') :: dictSet rest k v

/-- `list(d.keys())` of a Python dict: the keys in insertion order. -/
def keys {K V : Type} (d : List (K × V)) : List K := d.map Prod.fst

/-- Helper of `firstSeenDedup`, structurally recursive on a fuel bound so
that the kernel can evaluate it. -/
def firstSeenDedupAux {K : Type} [DecidableEq K] : ℕ → List K → List K
  | _, [] => []
  | 0, _ :: _ => []
  | fuel + 1, x :: xs => x :: firstSeenDedupAux fuel (xs.filter (fun y => ¬ y = x))

/-- The distinct elements of a list in first-seen order
(the i-th distinct value encountered comes i-th). -/
def firstSeenDedup {K : Type} [DecidableEq K] (l : List K) : List K :=
  firstSeenDedupAux l.length l

/-! ### Text utilities (Python string operations used by the moderator) -/

/-- ASCII lowercasing of one character; Python `str.lower` on the ASCII
texts handled by the moderator. -/
def lowerChar (c : Char) : Char :=
  if 'A' ≤ c ∧ c ≤ 'Z' then Char.ofNat (c.toNat + 32) else c

/-- Python `text.lower()`. -/
def lowerStr (s : List Char) : List Char := s.map lowerChar

/-- Does `s` start with `p` (match of a literal at the current position). -/
def isPrefixL : List Char → List Char → Bool
  | [], _ => true
  | _ :: _, [] => false
  | p :: ps, c :: cs => p = c && isPrefixL ps cs

/-- Python substring test `needle in haystack`. -/
def containsSub (needle : List Char) : List Char → Bool
  | [] => isPrefixL needle []
  | c :: cs => isPrefixL needle (c :: cs) || containsSub needle cs

/-- Match of a regex alternation `(w₁|…|wₙ)` of literal words at the
current position. -/
def anyWordAt (ws : List (List Char)) (s : List Char) : Bool :=
  ws.any (fun w => isPrefixL w s)

/-- Match of `.*(w₁|…|wₙ)` from the current position: some word of `ws`
occurs here or later, and the characters skipped before it contain no
newline (regex `.` does not match a newline). -/
def wordAfterNoNl (ws : List (List Char)) : List Char → Bool
  | [] => anyWordAt ws []
  | c :: cs => anyWordAt ws (c :: cs) || (!(c = '\n') && wordAfterNoNl ws cs)

/-- Existence of a match of `re.search` for a pattern
`(a₁|…|aₘ).*(b₁|…|bₙ)` of literal words on `s`. -/
def matchSeq (as bs : List (List Char)) : List Char → Bool
  | [] => false
  | c :: cs =>
    (as.any (fun a => isPrefixL a (c :: cs) && wordAfterNoNl bs (List.drop a.length (c :: cs))))
      || matchSeq as bs cs

/-- The whitespace characters Python `str.split()` splits on (ASCII). -/
def isSpaceChar (c : Char) : Bool :=
  c = ' ' || c = '\t' || c = '\n' || c = '\r' || c = '\x0b' || c = '\x0c'

/-- Helper of `splitWs`, carrying the reversed current word. -/
def splitWsAux : List Char → List Char → List (List Char)
  | cur, [] => if cur = [] then [] else [cur.reverse]
  | cur, c :: cs =>
    if isSpaceChar c then
      if cur = [] then splitWsAux [] cs else cur.reverse :: splitWsAux [] cs
    else splitWsAux (c :: cur) cs

/-- Python `text.split()` with no argument: split on whitespace runs,
discarding empty pieces. -/
def splitWs (s : List Char) : List (List Char) := splitWsAux [] s

/-! ### ContentModerator (src/ml_algorithms.py) -/

/-- The fixed banned-keyword list `ContentModerator.inappropriate_keywords`. -/
def inappropriateKeywords : List (List Char) :=
  ["spam", "hate", "abuse", "violence", "harassment", "bullying",
   "discrimination", "threat", "dangerous", "illegal"].map String.toList

/-- First alternation of spam pattern 1: `(buy|sale|discount|offer|deal)`. -/
def spamWordsA1 : List (List Char) :=
  ["buy", "sale", "discount", "offer", "deal"].map String.toList

/-- Second alternation of spam pattern 1: `(now|today|urgent)`. -/
def spamWordsB1 : List (List Char) :=
  ["now", "today", "urgent"].map String.toList

/-- First alternation of spam pattern 2: `(click|visit)`. -/
def spamWordsA2 : List (List Char) :=
  ["click", "visit"].map String.toList

/-- Second alternation of spam pattern 2: `(link|website|url)`. -/
def spamWordsB2 : List (List Char) :=
  ["link", "website", "url"].map String.toList

/-- Spam pattern 3: `(free|win|prize|lottery|money)`. -/
def spamWords3 : List (List Char) :=
  ["free", "win", "prize", "lottery", "money"].map String.toList

/-- Spam pattern 4: `(urgent|limited|expires|hurry)`. -/
def spamWords4 : List (List Char) :=
  ["urgent", "limited", "expires", "hurry"].map String.toList

/-- `ContentModerator._is_spam` (ml_algorithms.py lines 289-311): the four
regex patterns tried in order on the lowercased text, then the
repeated-word check.  Python compares `len(words)/len(set(words)) > 3`
with exact value `len(words) / #distinct words`; over the rationals this
is `len(words) > 3 * #distinct words`, stated that way to stay exact. -/
def isSpamText (text : List Char) : Bool :=
  let tl := lowerStr text
  if matchSeq spamWordsA1 spamWordsB1 tl then true
  else if matchSeq spamWordsA2 spamWordsB2 tl then true
  else if spamWords3.any (fun w => containsSub w tl) then true
  else if spamWords4.any (fun w => containsSub w tl) then true
  else
    let ws := splitWs tl
    if ws.length > 5 then
      decide (ws.length > 3 * (firstSeenDedup ws).length)
    else false

/-- The moderation verdict record returned by `moderate_text`. -/
structure Verdict where
  is_appropriate : Bool
  confidence : ℚ
  issues : List String
  suggested_action : String
deriving DecidableEq

/-- The banned keywords found in the lowercased text (the list
comprehension at ml_algorithms.py line 248). -/
def foundKeywords (text : List Char) : List (List Char) :=
  inappropriateKeywords.filter (fun k => containsSub k (lowerStr text))

/-- `ContentModerator.moderate_text` (ml_algorithms.py lines 232-278).
The TextBlob sentiment polarity is the output of an external library and
is abstracted as the parameter `pol`; `none` models the silent skip of
the sentiment step when TextBlob fails (the bare `except: pass`).  Every
other step follows the source line by line: banned-keyword scan
(confidence 0.8), sentiment flag (`polarity < -0.5` multiplies confidence
by 0.9), spam flag (confidence set to 0.7), then the action rule
(`block` only when the final confidence is strictly above 0.7). -/
def moderateText (text : List Char) (pol : Option ℚ) : Verdict :=
  if text = [] then ⟨true, 1, [], "approve"⟩
  else
    let r1 : Verdict :=
      if ¬ foundKeywords text = [] then ⟨false, 8/10, ["inappropriate_language"], "approve"⟩
      else ⟨true, 1, [], "approve"⟩
    let r2 : Verdict :=
      match pol with
      | some p =>
        if p < -(1/2) then
          { r1 with issues := r1.issues ++ ["negative_sentiment"],
                    confidence := r1.confidence * (9/10) }
        else r1
      | none => r1
    let r3 : Verdict :=
      if isSpamText text then
        { r2 with is_appropriate := false,
                  issues := r2.issues ++ ["spam"],
                  confidence := 7/10 }
      else r2
    if r3.is_appropriate = false then
      if r3.confidence > 7/10 then { r3 with suggested_action := "block" }
      else { r3 with suggested_action := "review" }
    else r3

/-- The scenario text of the spec, as a character list. -/
def promoText : List Char := "This is amazing, buy now urgent offer!!!".toList

/-! ### Stable descending sort -/

/-- Python `sorted(xs, key=key, reverse=True)`: a stable sort putting
larger keys first while equal keys keep their original order.
`List.insertionSort` with the relation `key b ≤ key a` has exactly this
behaviour. -/
def sortByKeyDesc {α β : Type} [LinearOrder β] (key : α → β) (l : List α) : List α :=
  l.insertionSort (fun a b => key b ≤ key a)

/-- `np.argsort(sims)[::-1]`: the index list of `sims` sorted so that
higher similarities come first.  numpy leaves the relative order of equal
entries unspecified; every theorem below that uses `argsortDesc` holds
for an arbitrary similarity vector and does not depend on tie order. -/
def argsortDesc (sims : List ℚ) : List ℕ :=
  ((List.range sims.length).insertionSort (fun i j => sims.getD i 0 ≤ sims.getD j 0)).reverse

/-- `list(set(xs))` for a list of natural-number ids.  CPython iterates a
set's hash table in slot order: for distinct small non-negative integers
(all below the table size, as in every concrete input used below) value
`v` hashes to `v` and sits in slot `v mod size`, so iteration is in
increasing numeric order — not first-seen order. -/
def pySetAscending (xs : List ℕ) : List ℕ :=
  (firstSeenDedup xs).insertionSort (fun a b => a ≤ b)

/-! ### RecommendationEngine (src/ml_algorithms.py) -/

/-- One record of `interactions_data`: `user_id`, `post_id` and
`rating = interaction.get('rating', 1)`. -/
structure Interaction where
  user_id : ℕ
  post_id : ℕ
  rating : ℚ
deriving DecidableEq

/-- One loop iteration of the `user_posts` build
(`collaborative_filtering_recommendations`, ml_algorithms.py lines 33-40):
`user_posts[user][post] = rating`. -/
def rePostsStep (d : List (ℕ × List (ℕ × ℚ))) (it : Interaction) :
    List (ℕ × List (ℕ × ℚ)) :=
  dictSet d it.user_id (dictSet ((dictGet d it.user_id).getD []) it.post_id it.rating)

/-- The nested dict `user_posts` of
`collaborative_filtering_recommendations` (ml_algorithms.py lines 32-40):
`user_posts[user][post] = rating`, a later interaction overwriting an
earlier one for the same pair. -/
def buildUserPosts (log : List Interaction) : List (ℕ × List (ℕ × ℚ)) :=
  log.foldl rePostsStep []

/-- `all_users = list(user_posts.keys())` (line 43): dict keys iterate in
insertion order, which is first-seen order of the log. -/
def reAllUsers (log : List Interaction) : List ℕ := keys (buildUserPosts log)

/-- The interaction-matrix value for the id pair `(u, p)`: the rating
stored in the nested dict, 0 when absent.  Lines 47-54 copy exactly these
values into `matrix[user_idx[u]][post_idx[p]]` for every post id of
`posts_data`. -/
def reRating (log : List Interaction) (u p : ℕ) : ℚ :=
  (dictGet ((dictGet (buildUserPosts log) u).getD []) p).getD 0

/-- One record of `posts_data`: the fields read by the ranking code,
together with the `engagement_score` key that `get_trending_posts` writes
into the post dict (`none` while the key is absent). -/
structure Post where
  id : ℕ
  likes_count : ℕ
  comments_count : ℕ
  shares_count : ℕ
  created_at : ℤ
  engagement_score : Option ℚ
deriving DecidableEq

/-- `days_old = (datetime.utcnow() - post_date).days` (line 168):
timestamps in seconds; `timedelta.days` is a floor division by 86400. -/
def daysOld (now createdAt : ℤ) : ℤ := Int.fdiv (now - createdAt) 86400

/-- The per-post engagement score value of `get_trending_posts` (lines
160-173): `(likes + comments*2 + shares*3) * max(0.1, 1/(1 + days_old*0.1))`
(computed only when the division does not raise, see
`engagementScoreOf`). -/
def engagementScoreVal (p : Post) (now : ℤ) : ℚ :=
  let timeFactor : ℚ := max (1/10) (1 / (1 + (daysOld now p.created_at) * (1/10)))
  ((p.likes_count : ℚ) + (p.comments_count : ℚ) * 2 + (p.shares_count : ℚ) * 3) * timeFactor

/-- The per-post engagement score computation of `get_trending_posts`,
including its failure case.  In Python the denominator `1 + days_old*0.1`
is a float; it is exactly `0.0` — and `1 / 0.0` raises
`ZeroDivisionError` — exactly when `days_old = -10` (`-10 * 0.1` rounds
to exactly `-1.0`; no other integer does).  That raise is `none` here; it
is caught by the function's `except` handler.  For every other
`days_old` the float expression is finite and the exact rational value
is used. -/
def engagementScoreOf (p : Post) (now : ℤ) : Option ℚ :=
  if daysOld now p.created_at = -10 then none
  else some (engagementScoreVal p now)

/-- The mutation loop of `get_trending_posts` (lines 161-173): each post
dict in turn gets `post['engagement_score'] = ...`.  When a post's score
computation raises, the loop stops: that post and the later ones stay
unmutated.  Returns the post-list state and whether the loop finished
without raising. -/
def trendingLoop (now : ℤ) : List Post → List Post × Bool
  | [] => ([], true)
  | p :: rest =>
    match engagementScoreOf p now with
    | none => (p :: rest, false)
    | some s =>
      let pr := trendingLoop now rest
      ({ p with engagement_score := some s } :: pr.1, pr.2)

/-- `RecommendationEngine.get_trending_posts` (lines 157-182).  The Python
function writes `post['engagement_score'] = ...` into every dict of
`posts_data` (an in-place mutation visible to the caller) and then sorts
by that score; when the loop raises, the `except` handler (lines 180-182)
returns the ids of the first `k` posts in original order, the records
before the raising one already mutated.  The model returns the pair
(returned ranked id list, state of the `posts_data` records after the
call). -/
def getTrendingPosts (posts : List Post) (now : ℤ) (k : ℕ) : List ℕ × List Post :=
  let pr := trendingLoop now posts
  if pr.2 then
    (((sortByKeyDesc (fun p => (p.engagement_score).getD 0) pr.1).take k).map Post.id, pr.1)
  else ((pr.1.take k).map Post.id, pr.1)

/-- `RecommendationEngine.content_based_recommendations` (lines 83-118).
The TF-IDF cosine similarities between the user profile and the post
texts are float outputs of sklearn, abstracted as the vector `sims`
(indexed like `posts`); no claim settled here depends on their values.
With a non-empty corpus the code returns the ids of the top-`k` indices
of `np.argsort(sims)[::-1]`; with an empty corpus it falls back to
`get_trending_posts`. -/
def contentBasedRecs (posts : List Post) (sims : List ℚ) (now : ℤ) (k : ℕ) : List ℕ :=
  if 0 < posts.length then
    ((argsortDesc sims).take k).map (fun i => (posts.map Post.id).getD i 0)
  else (getTrendingPosts posts now k).1

/-- The known-user branch of
`RecommendationEngine.collaborative_filtering_recommendations`
(ml_algorithms.py lines 61-74).  The SVD/cosine pipeline produces a float
similarity vector, abstracted as `sims`; the code then takes
`np.argsort(similarities)[::-1][:k]` and maps the indices through
`all_posts = list(set(post ids))` — it never excludes posts the user
already interacted with.  (Against the real libraries this branch in fact
raises a shape error and the `except` handler returns
`get_trending_posts`, which does not exclude interacted posts either; on
the concrete counterexample input below both readings return the same
list.) -/
def reCollabKnown (posts : List Post) (sims : List ℚ) (k : ℕ) : List ℕ :=
  let allPosts := pySetAscending (posts.map Post.id)
  ((argsortDesc sims).take k).map (fun i => allPosts.getD i 0)

/-- The enumerate-loop of `hybrid_recommendations` (lines 141-145): for
the item at 0-based position `idx` of `recs`, add `w * (1 - idx/n)` to
its score in the dict `d`, where `n` is fixed to the length of the full
list. -/
def addRankScores (w : ℚ) (n : ℕ) : ℕ → List ℕ → List (ℕ × ℚ) → List (ℕ × ℚ)
  | _, [], d => d
  | idx, pid :: rest, d =>
    addRankScores w n (idx + 1) rest
      (dictSet d pid ((dictGet d pid).getD 0 + w * (1 - (idx : ℚ) / (n : ℚ))))

/-- The `post_scores` dict of `RecommendationEngine.hybrid_recommendations`
(lines 139-145): 0.6-weighted positional scores from the collaborative
list, then 0.4-weighted ones from the content list. -/
def hybridMergeScores (collab content : List ℕ) : List (ℕ × ℚ) :=
  addRankScores (4/10) content.length 0 content
    (addRankScores (6/10) collab.length 0 collab [])

/-- The merge step of `hybrid_recommendations` (lines 133-151) as a
function of the two ranked input lists: sort the combined scores
descending (Python's stable sort) and return the top `k` ids. -/
def hybridMerge (collab content : List ℕ) (k : ℕ) : List ℕ :=
  ((sortByKeyDesc Prod.snd (hybridMergeScores collab content)).take k).map Prod.fst

/-! ### AdvancedRecommendationSystem (src/ml_models.py) -/

/-- One record of ml_models.py `interactions_data`:
`{user_id, content_id, engagement_score}`. -/
structure MInteraction where
  user_id : ℕ
  content_id : ℕ
  engagement_score : ℚ
deriving DecidableEq

/-- `users = list(set([i['user_id'] for i in interactions_data]))`
(ml_models.py line 28). -/
def mmUsers (log : List MInteraction) : List ℕ :=
  pySetAscending (log.map MInteraction.user_id)

/-- `items = list(set([i['content_id'] for i in interactions_data]))`
(ml_models.py line 29). -/
def mmItems (log : List MInteraction) : List ℕ :=
  pySetAscending (log.map MInteraction.content_id)

/-- The interaction-matrix cell for the id pair `(u, i)` after the fill
loop of `prepare_training_data` (ml_models.py lines 36-39): each
interaction writes its engagement score into its cell in log order, so
the cell holds the last written value, 0 if never written.  Cells are
addressed through the injective maps `user_idx`/`item_idx`, so addressing
by the ids themselves is faithful. -/
def mmCell (log : List MInteraction) (u i : ℕ) : ℚ :=
  log.foldl
    (fun acc it => if it.user_id = u ∧ it.content_id = i then it.engagement_score else acc) 0

/-- `AdvancedRecommendationSystem.collaborative_filtering_recommendations`
(ml_models.py lines 52-74) for a trained state, in matrix-index space:
`matrix` is the user-item matrix, `uIdx` the target user's row index and
`sims` the float cosine-similarity vector of the target row against all
rows, abstracted as a parameter.  `similar_users =
np.argsort(sims)[::-1][1:6]`; every item column whose entry in the user's
row is 0 is scored by the neighbour-weighted sum; the pair list is sorted
by score descending (stable) and truncated to `n`. -/
def mmCollabRecs (matrix : List (List ℚ)) (uIdx : ℕ) (sims : List ℚ) (n : ℕ) :
    List (ℕ × ℚ) :=
  let row := matrix.getD uIdx []
  let similarUsers := ((argsortDesc sims).drop 1).take 5
  let recs := (List.range row.length).filterMap
    (fun i =>
      if row.getD i 0 = 0 then
        some (i, (similarUsers.map (fun su => (matrix.getD su []).getD i 0 * sims.getD su 0)).sum)
      else none)
  (sortByKeyDesc Prod.snd recs).take n

/-! ### TrendDetectionModel (src/ml_models.py) -/

/-- A trend entry `{'score', 'last_updated', 'mentions'}` (ml_models.py
line 307).  Timestamps are in whole hours: the decay exponent is the
elapsed time in hours and the claims use elapsed times of 0 and 1
hours. -/
structure TrendEntry where
  score : ℚ
  last_updated : ℤ
  mentions : ℕ
deriving DecidableEq

/-- `TrendDetectionModel.update_hashtag_trend` (ml_models.py lines
301-316): create the entry if absent, decay the stored score by
`0.95 ** elapsed_hours`, add the engagement delta, stamp `last_updated`,
increment `mentions`. -/
def updateHashtagTrend (state : List (String × TrendEntry)) (h : String) (eng : ℚ) (t : ℤ) :
    List (String × TrendEntry) :=
  let st := if (dictGet state h).isSome then state else dictSet state h ⟨0, t, 0⟩
  let e := (dictGet st h).getD ⟨0, t, 0⟩
  dictSet st h ⟨e.score * (19/20 : ℚ) ^ (t - e.last_updated) + eng, t, e.mentions + 1⟩

/-- `TrendDetectionModel.get_trending_hashtags` (ml_models.py lines
318-332): decay every stored score to `now` (the method updates the
stored scores in place, without touching `last_updated`), then sort by
score descending (Python's stable sort keeps dict insertion order on
ties) and return the top `limit` triples.  Returned as
(state after the call, result list). -/
def getTrendingHashtags (state : List (String × TrendEntry)) (now : ℤ) (limit : ℕ) :
    List (String × TrendEntry) × List (String × ℚ × ℕ) :=
  let decayed := state.map
    (fun kv => (kv.1, { kv.2 with score := kv.2.score * (19/20 : ℚ) ^ (now - kv.2.last_updated) }))
  let ranked := sortByKeyDesc (fun kv => kv.2.score) decayed
  (decayed, (ranked.take limit).map (fun kv => (kv.1, kv.2.score, kv.2.mentions)))

/-! ### UserBehaviorPredictor (src/app.py) -/

/-- One update of a user's `active_hours` dict
(`UserBehaviorPredictor.update_user_activity`, app.py lines 91-110):
increment the count of the action's hour of day. -/
def bumpHour (d : List (ℕ × ℕ)) (h : ℕ) : List (ℕ × ℕ) :=
  dictSet d h ((dictGet d h).getD 0 + 1)

/-- The `active_hours` dict of a user whose recorded actions happened at
the listed hours, in order. -/
def buildActiveHours (hours : List ℕ) : List (ℕ × ℕ) :=
  hours.foldl bumpHour []

/-- `UserBehaviorPredictor.predict_engagement_time` (app.py lines
112-118).  `none` is an unseen user (`user_id not in
user_activity_patterns`); a seen user always has at least one recorded
action.  `sorted(hours.items(), key=lambda x: x[1], reverse=True)` is a
stable descending sort on the counts, so equal counts keep dict insertion
order, i.e. the order in which each hour was first seen. -/
def predictEngagementTime (state : Option (List ℕ)) : List ℕ :=
  match state with
  | none => [9, 12, 18, 21]
  | some hours => ((sortByKeyDesc Prod.snd (buildActiveHours hours)).take 4).map Prod.fst

/-- A two-interaction log for user 1 touching item 2 first, then item 1. -/
def c6Log : List MInteraction := [⟨1, 2, 1⟩, ⟨1, 1, 1⟩]

/-- The single post of the C1 counterexample (id 3, no engagement). -/
def c1Posts : List Post := [⟨3, 0, 0, 0, 0, none⟩]

/-- The single interaction of the C1 counterexample: user 1 rated post 3. -/
def c1Log : List Interaction := [⟨1, 3, 1⟩]

/-- A post record without an `engagement_score` key, as a caller hands it
to the ranking engine. -/
def c4Post : Post := ⟨1, 2, 0, 0, 0, none⟩

/-- The 0-based position of the first occurrence of `x` in a list
(`list.index(x)`; 0 when absent, used only under a membership
hypothesis). -/
def posIn {K : Type} [DecidableEq K] (x : K) : List K → ℕ
  | [] => 0
  | y :: ys => if x = y then 0 else posIn x ys + 1

/-- The stable descending count sort of the position-tagged hour entries
(the entries of `sorted(hours.items(), key=lambda x: x[1], reverse=True)`
tagged with their dict position). -/
def sortedHourEntries (hours : List ℕ) : List (ℕ × (ℕ × ℕ)) :=
  (buildActiveHours hours).enum.insertionSort
    (fun a b : ℕ × (ℕ × ℕ) => b.2.2 ≤ a.2.2)

/-- Modelled from the spec: the active-hours ranking exactly as claim C8
words it — top 4 hours by action count descending, ties broken by the
numerically earlier hour. -/
def specPredictActiveHours (hours : List ℕ) : List ℕ :=
  (((buildActiveHours hours).insertionSort
      (fun a b : ℕ × ℕ => b.2 < a.2 ∨ (a.2 = b.2 ∧ a.1 ≤ b.1))).take 4).map Prod.fst

theorem firstSeenDedupAux_nil {K : Type} [DecidableEq K] (f : ℕ) :
    firstSeenDedupAux f ([] : List K) = [] := by
  cases f <;> rfl

theorem firstSeenDedupAux_congr {K : Type} [DecidableEq K] :
    ∀ (f₁ : ℕ) (l : List K) (f₂ : ℕ), l.length ≤ f₁ → l.length ≤ f₂ →
      firstSeenDedupAux f₁ l = firstSeenDedupAux f₂ l := by
  intro f₁
  induction f₁ with
  | zero =>
    intro l f₂ h₁ _
    rw [List.length_eq_zero.mp (Nat.le_zero.mp h₁), firstSeenDedupAux_nil,
      firstSeenDedupAux_nil]
  | succ f ih =>
    intro l f₂ h₁ h₂
    match l, f₂ with
    | [], _ => rw [firstSeenDedupAux_nil, firstSeenDedupAux_nil]
    | x :: xs, 0 => exact absurd h₂ (by simp)
    | x :: xs, g + 1 =>
      have hlen := List.length_filter_le (fun y => decide (¬ y = x)) xs
      have h₁' : (xs.filter (fun y => ¬ y = x)).length ≤ f :=
        le_trans hlen (Nat.lt_succ_iff.mp h₁)
      have h₂' : (xs.filter (fun y => ¬ y = x)).length ≤ g :=
        le_trans hlen (Nat.lt_succ_iff.mp h₂)
      show x :: _ = x :: _
      rw [ih _ g h₁' h₂']

theorem firstSeenDedup_nil {K : Type} [DecidableEq K] :
    firstSeenDedup ([] : List K) = [] := rfl

theorem firstSeenDedup_cons {K : Type} [DecidableEq K] (x : K) (xs : List K) :
    firstSeenDedup (x :: xs) = x :: firstSeenDedup (xs.filter (fun y => ¬ y = x)) := by
  show x :: firstSeenDedupAux xs.length (xs.filter (fun y => ¬ y = x)) = _
  rw [firstSeenDedupAux_congr xs.length _ (xs.filter (fun y => ¬ y = x)).length
    (List.length_filter_le _ xs) (le_refl _)]
  rfl

theorem dictGet_dictSet_self {K V : Type} [DecidableEq K]
    (d : List (K × V)) (k : K) (v : V) :
    dictGet (dictSet d k v) k = some v := by
  induction d with
  | nil => simp [dictGet, dictSet]
  | cons p rest ih =>
    obtain ⟨k', v'⟩ := p
    by_cases h : k = k'
    · simp [dictSet, dictGet, h]
    · simp [dictSet, dictGet, h, ih]

theorem dictGet_dictSet_ne {K V : Type} [DecidableEq K]
    (d : List (K × V)) {q k : K} (v : V) (h : ¬ q = k) :
    dictGet (dictSet d k v) q = dictGet d q := by
  induction d with
  | nil => simp [dictGet, dictSet, h]
  | cons p rest ih =>
    obtain ⟨k', v'⟩ := p
    by_cases hk : k = k'
    · subst hk
      simp [dictSet, dictGet, h]
    · by_cases hq : q = k'
      · simp [dictSet, dictGet, hk, hq]
      · simp [dictSet, dictGet, hk, hq, ih]

theorem keys_cons {K V : Type} (k' : K) (v' : V) (rest : List (K × V)) :
    keys ((k', v') :: rest) = k' :: keys rest := rfl

theorem keys_dictSet_mem {K V : Type} [DecidableEq K] :
    ∀ (d : List (K × V)) {k : K} (v : V), k ∈ keys d →
      keys (dictSet d k v) = keys d
  | [], k, v, h => by simp [keys] at h
  | (k', v') :: rest, k, v, h => by
    by_cases hk : k = k'
    · simp [dictSet, keys_cons, hk]
    · have h' : k ∈ keys rest := by
        rcases (by simpa [keys_cons] using h : k = k' ∨ k ∈ keys rest) with h0 | h0
        · exact absurd h0 hk
        · exact h0
      simp only [dictSet, if_neg hk, keys_cons]
      rw [keys_dictSet_mem rest v h']

theorem keys_dictSet_notMem {K V : Type} [DecidableEq K] :
    ∀ (d : List (K × V)) {k : K} (v : V), ¬ k ∈ keys d →
      keys (dictSet d k v) = keys d ++ [k]
  | [], k, v, _ => by simp [dictSet, keys]
  | (k', v') :: rest, k, v, h => by
    by_cases hk : k = k'
    · exact absurd (by simp [keys_cons, hk]) h
    · have h' : ¬ k ∈ keys rest := fun hm => h (by simp [keys_cons, hm])
      simp only [dictSet, if_neg hk, keys_cons]
      rw [keys_dictSet_notMem rest v h']
      rfl

theorem dictGet_isSome_iff_mem_keys {K V : Type} [DecidableEq K]
    (d : List (K × V)) (k : K) :
    (dictGet d k).isSome = true ↔ k ∈ keys d := by
  induction d with
  | nil => simp [dictGet, keys]
  | cons p rest ih =>
    obtain ⟨k', v'⟩ := p
    by_cases hk : k = k'
    · simp [dictGet, keys, hk]
    · simp [dictGet, keys, hk, ih]

/-- Keys of a fold of dict updates: the fold visits `l` left to right and
writes key `κ a` for each element, so the final key list is the original
keys followed by the unseen written keys in first-seen order. -/
theorem keys_foldl_dictSet {K V A : Type} [DecidableEq K]
    (κ : A → K) (f : List (K × V) → A → V) :
    ∀ (l : List A) (d : List (K × V)),
      keys (l.foldl (fun d a => dictSet d (κ a) (f d a)) d)
        = keys d ++ firstSeenDedup ((l.map κ).filter (fun x => ¬ x ∈ keys d)) := by
  intro l
  induction l with
  | nil => intro d; simp [firstSeenDedup_nil]
  | cons a t ih =>
    intro d
    by_cases h : κ a ∈ keys d
    · have hkeys := keys_dictSet_mem d (f d a) h
      calc keys ((a :: t).foldl (fun d a => dictSet d (κ a) (f d a)) d)
          = keys (dictSet d (κ a) (f d a))
              ++ firstSeenDedup ((t.map κ).filter
                  (fun x => ¬ x ∈ keys (dictSet d (κ a) (f d a)))) := by
            simpa using ih (dictSet d (κ a) (f d a))
        _ = keys d ++ firstSeenDedup (((a :: t).map κ).filter (fun x => ¬ x ∈ keys d)) := by
            rw [hkeys]
            have heq : ((a :: t).map κ).filter (fun x => ¬ x ∈ keys d)
                = (t.map κ).filter (fun x => ¬ x ∈ keys d) := by
              simp [h]
            rw [heq]
    · have hkeys := keys_dictSet_notMem d (f d a) h
      have hfilter : ∀ x : K,
          (¬ x ∈ keys d ++ [κ a]) ↔ ((¬ x ∈ keys d) ∧ ¬ x = κ a) := by
        intro x
        simp [not_or, and_comm]
      calc keys ((a :: t).foldl (fun d a => dictSet d (κ a) (f d a)) d)
          = keys (dictSet d (κ a) (f d a))
              ++ firstSeenDedup ((t.map κ).filter
                  (fun x => ¬ x ∈ keys (dictSet d (κ a) (f d a)))) := by
            simpa using ih (dictSet d (κ a) (f d a))
        _ = (keys d ++ [κ a])
              ++ firstSeenDedup ((t.map κ).filter (fun x => ¬ x ∈ keys d ++ [κ a])) := by
            rw [hkeys]
        _ = keys d ++ firstSeenDedup (((a :: t).map κ).filter (fun x => ¬ x ∈ keys d)) := by
            have heq : ((t.map κ).filter (fun x => ¬ x ∈ keys d ++ [κ a]))
                = ((t.map κ).filter (fun x => ¬ x ∈ keys d)).filter (fun y => ¬ y = κ a) := by
              rw [List.filter_filter]
              apply List.filter_congr
              intro x _
              have hx := hfilter x
              by_cases h1 : x ∈ keys d <;> by_cases h2 : x = κ a <;>
                simp [h1, h2] at hx ⊢
            rw [heq]
            simp [firstSeenDedup_cons, h, List.append_assoc]

/-! ### General lemmas about the model -/

theorem sortByKeyDesc_perm {α β : Type} [LinearOrder β] (key : α → β) (l : List α) :
    List.Perm (sortByKeyDesc key l) l :=
  List.perm_insertionSort _ l

theorem sortByKeyDesc_pairwise {α β : Type} [LinearOrder β] (key : α → β) (l : List α) :
    (sortByKeyDesc key l).Pairwise (fun a b => key b ≤ key a) := by
  have ht : IsTotal α (fun a b => key b ≤ key a) :=
    ⟨fun a b => (le_total (key b) (key a)).elim Or.inl Or.inr⟩
  have htr : IsTrans α (fun a b => key b ≤ key a) :=
    ⟨fun _ _ _ h1 h2 => le_trans h2 h1⟩
  exact List.sorted_insertionSort _ l

theorem sortByKeyDesc_length {α β : Type} [LinearOrder β] (key : α → β) (l : List α) :
    (sortByKeyDesc key l).length = l.length :=
  (sortByKeyDesc_perm key l).length_eq

theorem mem_sortByKeyDesc {α β : Type} [LinearOrder β] (key : α → β) (l : List α) (x : α) :
    x ∈ sortByKeyDesc key l ↔ x ∈ l :=
  (sortByKeyDesc_perm key l).mem_iff

theorem mem_firstSeenDedup_aux {K : Type} [DecidableEq K] (x : K) :
    ∀ (n : ℕ) (l : List K), l.length ≤ n → (x ∈ firstSeenDedup l ↔ x ∈ l) := by
  intro n
  induction n with
  | zero =>
    intro l hl
    rw [List.length_eq_zero.mp (Nat.le_zero.mp hl)]
    simp [firstSeenDedup_nil]
  | succ n ih =>
    intro l hl
    match l with
    | [] => simp [firstSeenDedup_nil]
    | y :: ys =>
      have hlen : (ys.filter (fun z => ¬ z = y)).length ≤ n :=
        le_trans (List.length_filter_le _ ys) (Nat.lt_succ_iff.mp hl)
      rw [firstSeenDedup_cons]
      by_cases hxy : x = y
      · simp [hxy]
      · simp only [List.mem_cons, hxy, false_or, ih _ hlen, List.mem_filter]
        simp [hxy]

theorem mem_firstSeenDedup {K : Type} [DecidableEq K] (x : K) (l : List K) :
    x ∈ firstSeenDedup l ↔ x ∈ l :=
  mem_firstSeenDedup_aux x l.length l (le_refl _)

theorem nodup_firstSeenDedup_aux {K : Type} [DecidableEq K] :
    ∀ (n : ℕ) (l : List K), l.length ≤ n → (firstSeenDedup l).Nodup := by
  intro n
  induction n with
  | zero =>
    intro l hl
    rw [List.length_eq_zero.mp (Nat.le_zero.mp hl)]
    exact List.nodup_nil
  | succ n ih =>
    intro l hl
    match l with
    | [] => exact List.nodup_nil
    | y :: ys =>
      have hlen : (ys.filter (fun z => ¬ z = y)).length ≤ n :=
        le_trans (List.length_filter_le _ ys) (Nat.lt_succ_iff.mp hl)
      rw [firstSeenDedup_cons]
      refine List.nodup_cons.mpr ⟨fun hy => ?_, ih _ hlen⟩
      have := (mem_firstSeenDedup y _).mp hy
      simp at this

theorem nodup_firstSeenDedup {K : Type} [DecidableEq K] (l : List K) :
    (firstSeenDedup l).Nodup :=
  nodup_firstSeenDedup_aux l.length l (le_refl _)

theorem dictGet_some_mem {K V : Type} [DecidableEq K] :
    ∀ (d : List (K × V)) (k : K) (v : V), dictGet d k = some v → (k, v) ∈ d := by
  intro d
  induction d with
  | nil => intro k v h; simp [dictGet] at h
  | cons p rest ih =>
    intro k v h
    obtain ⟨k', v'⟩ := p
    by_cases hk : k = k'
    · simp only [dictGet, if_pos hk] at h
      subst hk
      obtain rfl : v' = v := Option.some_inj.mp h
      exact List.mem_cons_self _ _
    · simp only [dictGet, if_neg hk] at h
      exact List.mem_cons_of_mem _ (ih k v h)

theorem dictGet_of_mem_nodup {K V : Type} [DecidableEq K] :
    ∀ (d : List (K × V)) (k : K) (v : V), (keys d).Nodup → (k, v) ∈ d →
      dictGet d k = some v := by
  intro d
  induction d with
  | nil => intro k v _ h; simp at h
  | cons p rest ih =>
    intro k v hnd h
    obtain ⟨k', v'⟩ := p
    rcases List.mem_cons.mp h with heq | hmem
    · obtain ⟨rfl, rfl⟩ := Prod.mk.injEq .. ▸ heq
      simp [dictGet]
    · have hk : ¬ k = k' := by
        rintro rfl
        have : k ∈ keys rest := List.mem_map_of_mem Prod.fst hmem
        exact (List.nodup_cons.mp hnd).1 this
      simp only [dictGet, if_neg hk]
      exact ih k v (List.nodup_cons.mp hnd).2 hmem

/-- **C9**: for the empty item corpus and any similarity vector, the
content-based filter returns the empty list (through the
`get_trending_posts` fallback, which on an empty post list returns `[]`);
no error path is taken. -/
theorem c9_content_filter_empty_corpus (sims : List ℚ) (now : ℤ) (k : ℕ) :
    contentBasedRecs [] sims now k = [] := by
  simp [contentBasedRecs, getTrendingPosts, trendingLoop, sortByKeyDesc]

/-- **C5**: decay-then-add with zero elapsed time gives exactly
`previous_score + delta` (`0.95 ** 0 = 1`), and the scenario
`record("music", 10, t0)`, `record("music", 5, t0+1h)`, `top(1)` at
`t0+1h` yields the exact score `10 * 0.95 + 5 = 14.5 = 29/2` with 2
mentions (timestamps in hours, `t0 = 0`). -/
theorem c5_trend_decay_then_add
    (state : List (String × TrendEntry)) (h : String) (eng : ℚ) (t : ℤ)
    (e : TrendEntry) (hget : dictGet state h = some e) (hlast : e.last_updated = t) :
    dictGet (updateHashtagTrend state h eng t) h
      = some ⟨e.score + eng, t, e.mentions + 1⟩ ∧
    (getTrendingHashtags
        (updateHashtagTrend (updateHashtagTrend [] "music" 10 0) "music" 5 1) 1 1).2
      = [("music", 29/2, 2)] := by
  constructor
  · simp only [updateHashtagTrend, hget, Option.isSome_some, if_true, Option.getD_some,
      hlast, sub_self, zpow_zero, mul_one, dictGet_dictSet_self]
  · have h1 : updateHashtagTrend [] "music" 10 0 = [("music", ⟨10, 0, 1⟩)] := by
      simp [updateHashtagTrend, dictGet, dictSet]
    have h2 : updateHashtagTrend [("music", ⟨10, 0, 1⟩)] "music" 5 1
        = [("music", ⟨29/2, 1, 2⟩)] := by
      simp [updateHashtagTrend, dictGet, dictSet]
      norm_num
    have h3 : (getTrendingHashtags [("music", (⟨29/2, 1, 2⟩ : TrendEntry))] 1 1).2
        = [("music", 29/2, 2)] := by
      simp [getTrendingHashtags, sortByKeyDesc]
    rw [h1, h2, h3]

theorem c5_trend_decay_then_add_witness :
    dictGet (updateHashtagTrend [("x", ⟨3, 5, 2⟩)] "x" 1 5) "x"
      = some ⟨3 + 1, 5, 2 + 1⟩ :=
  (c5_trend_decay_then_add [("x", ⟨3, 5, 2⟩)] "x" 1 5 ⟨3, 5, 2⟩
    (by simp [dictGet]) rfl).1

theorem foldl_overwrite_no_match (u i : ℕ) :
    ∀ (l : List MInteraction) (c : ℚ),
      (∀ x ∈ l, ¬ (x.user_id = u ∧ x.content_id = i)) →
      l.foldl
        (fun acc it =>
          if it.user_id = u ∧ it.content_id = i then it.engagement_score else acc) c = c := by
  intro l
  induction l with
  | nil => intro c _; rfl
  | cons a t ih =>
    intro c hc
    have ha : ¬ (a.user_id = u ∧ a.content_id = i) := hc a (List.mem_cons_self _ _)
    simp only [List.foldl_cons, if_neg ha]
    exact ih c (fun x hx => hc x (List.mem_cons_of_mem _ hx))

theorem reRating_step_ne (d : List (ℕ × List (ℕ × ℚ))) (it : Interaction) (u p : ℕ)
    (h : ¬ (it.user_id = u ∧ it.post_id = p)) :
    dictGet ((dictGet (rePostsStep d it) u).getD []) p
      = dictGet ((dictGet d u).getD []) p := by
  by_cases hu : it.user_id = u
  · have hp : ¬ p = it.post_id := fun hp => h ⟨hu, hp.symm⟩
    rw [rePostsStep, hu, dictGet_dictSet_self, Option.getD_some,
      dictGet_dictSet_ne _ _ hp]
  · have hu' : ¬ u = it.user_id := fun hh => hu hh.symm
    rw [rePostsStep, dictGet_dictSet_ne _ _ hu']

theorem reRating_foldl_no_match (u p : ℕ) :
    ∀ (l : List Interaction) (d : List (ℕ × List (ℕ × ℚ))),
      (∀ x ∈ l, ¬ (x.user_id = u ∧ x.post_id = p)) →
      dictGet ((dictGet (l.foldl rePostsStep d) u).getD []) p
        = dictGet ((dictGet d u).getD []) p := by
  intro l
  induction l with
  | nil => intro d _; rfl
  | cons a t ih =>
    intro d hc
    have ha : ¬ (a.user_id = u ∧ a.post_id = p) := hc a (List.mem_cons_self _ _)
    calc dictGet ((dictGet ((a :: t).foldl rePostsStep d) u).getD []) p
        = dictGet ((dictGet (rePostsStep d a) u).getD []) p :=
          ih (rePostsStep d a) (fun x hx => hc x (List.mem_cons_of_mem _ hx))
      _ = dictGet ((dictGet d u).getD []) p := reRating_step_ne d a u p ha

/-- **C7**: for both matrix builds — `prepare_training_data`
(ml_models.py) and the `user_posts` dict of
`collaborative_filtering_recommendations` (ml_algorithms.py) — when the
log contains an interaction for `(u, i)` that is not followed by another
one for the same pair, the built cell holds exactly that interaction's
weight: a later interaction overwrites, weights are never accumulated. -/
theorem c7_last_interaction_wins
    (pre post : List MInteraction) (it : MInteraction)
    (pre' post' : List Interaction) (it' : Interaction) (u i u' p' : ℕ)
    (hit : it.user_id = u ∧ it.content_id = i)
    (hpost : ∀ x ∈ post, ¬ (x.user_id = u ∧ x.content_id = i))
    (hit' : it'.user_id = u' ∧ it'.post_id = p')
    (hpost' : ∀ x ∈ post', ¬ (x.user_id = u' ∧ x.post_id = p')) :
    mmCell (pre ++ it :: post) u i = it.engagement_score ∧
    reRating (pre' ++ it' :: post') u' p' = it'.rating := by
  constructor
  · rw [mmCell, List.foldl_append, List.foldl_cons, if_pos hit]
    exact foldl_overwrite_no_match u i post it.engagement_score hpost
  · rw [reRating, buildUserPosts, List.foldl_append, List.foldl_cons]
    rw [reRating_foldl_no_match u' p' post' _ hpost']
    obtain ⟨hu, hp⟩ := hit'
    rw [rePostsStep, hu, hp, dictGet_dictSet_self, Option.getD_some,
      dictGet_dictSet_self, Option.getD_some]

theorem c7_last_interaction_wins_witness :
    mmCell [⟨1, 2, 5⟩, ⟨1, 2, 7⟩] 1 2 = 7 ∧
    reRating [⟨1, 3, 1⟩, ⟨1, 3, 2⟩] 1 3 = 2 :=
  c7_last_interaction_wins [⟨1, 2, 5⟩] [] ⟨1, 2, 7⟩ [⟨1, 3, 1⟩] [] ⟨1, 3, 2⟩ 1 2 1 3
    (by exact ⟨rfl, rfl⟩) (by simp) (by exact ⟨rfl, rfl⟩) (by simp)

/-- **C2**: for the text "This is amazing, buy now urgent offer!!!" and
any sentiment polarity that is not below the -0.5 threshold (the real
TextBlob polarity of this text is positive; `none` covers an unavailable
sentiment subsystem), the verdict flags `spam` (pattern
`(buy|...).*(now|...)` matches "buy now"), does not flag
`negative_sentiment`, and has `is_appropriate = False`,
`confidence = 0.7` and `suggested_action = review` (block requires
confidence strictly greater than 0.7). -/
theorem c2_promo_text_verdict (pol : Option ℚ)
    (hpol : ∀ p, pol = some p → ¬ p < -(1/2)) :
    (moderateText promoText pol).is_appropriate = false ∧
    "spam" ∈ (moderateText promoText pol).issues ∧
    ¬ "negative_sentiment" ∈ (moderateText promoText pol).issues ∧
    (moderateText promoText pol).confidence = 7/10 ∧
    (moderateText promoText pol).suggested_action = "review" := by
  have heq : moderateText promoText pol = ⟨false, 7/10, ["spam"], "review"⟩ := by
    have hspam : isSpamText promoText = true := by decide
    have hkw : foundKeywords promoText = [] := by decide
    have hne : ¬ (promoText = ([] : List Char)) := by decide
    have h7 : ¬ ((7/10 : ℚ) > 7/10) := by norm_num
    match pol with
    | none => simp [moderateText, hspam, hkw, hne, h7]
    | some p =>
      have hp : ¬ p < -(1/2) := hpol p rfl
      simp [moderateText, hspam, hkw, hne, h7, hp, -one_div]
  rw [heq]
  exact ⟨rfl, by simp, by simp, rfl, rfl⟩

theorem c2_promo_text_verdict_witness :
    (moderateText promoText (some (3/5))).is_appropriate = false ∧
    "spam" ∈ (moderateText promoText (some (3/5))).issues ∧
    ¬ "negative_sentiment" ∈ (moderateText promoText (some (3/5))).issues ∧
    (moderateText promoText (some (3/5))).confidence = 7/10 ∧
    (moderateText promoText (some (3/5))).suggested_action = "review" :=
  c2_promo_text_verdict (some (3/5)) (by
    intro p hp
    obtain rfl : p = 3/5 := (Option.some_inj.mp hp).symm
    norm_num)

/-- **C10**: whenever the text both contains a banned keyword and trips
the spam heuristic, the spam step overwrites the keyword step's 0.8
(possibly scaled by the sentiment step) with exactly 0.7, so the verdict
has confidence 0.7 and action `review` — never `block`, which requires
confidence strictly above 0.7 — for every sentiment polarity. -/
theorem c10_keyword_and_spam_review (text : List Char) (pol : Option ℚ)
    (hkw : ¬ foundKeywords text = []) (hspam : isSpamText text = true) :
    (moderateText text pol).confidence = 7/10 ∧
    (moderateText text pol).is_appropriate = false ∧
    (moderateText text pol).suggested_action = "review" := by
  have hne : ¬ text = [] := by
    rintro rfl
    exact hkw (by decide)
  have h7 : ¬ ((7/10 : ℚ) > 7/10) := by norm_num
  match pol with
  | none => simp [moderateText, hspam, hkw, hne, h7]
  | some p =>
    by_cases hp : p < -(1/2) <;> simp [moderateText, hspam, hkw, hne, h7, hp, -one_div]

theorem c10_keyword_and_spam_review_witness :
    (moderateText ("spam money".toList) (some 0)).confidence = 7/10 ∧
    (moderateText ("spam money".toList) (some 0)).is_appropriate = false ∧
    (moderateText ("spam money".toList) (some 0)).suggested_action = "review" :=
  c10_keyword_and_spam_review ("spam money".toList) (some 0) (by decide) (by decide)

/-- **C6** counterexample: with item ids first seen in the order 2, 1,
`items = list(set(...))` iterates as `[1, 2]`, so the first-seen item 2
gets index 1, not index 0 as first-seen-order assignment demands. -/
theorem c6_counterexample :
    mmItems c6Log = [1, 2] ∧
    firstSeenDedup (c6Log.map MInteraction.content_id) = [2, 1] ∧
    ¬ mmItems c6Log = firstSeenDedup (c6Log.map MInteraction.content_id) :=
  ⟨by decide, by decide, by decide⟩

/-- **C6** (amended): in `RecommendationEngine` (ml_algorithms.py) the
user ids do get 0-based indices in first-seen order of the log, because
`all_users` iterates the `user_posts` dict keys in insertion order.  (The
item index there is built from `posts_data` through a Python `set`, and
both index maps of `AdvancedRecommendationSystem` (ml_models.py) are
built through sets, whose iteration order is hash-table order — for small
integer ids, increasing numeric order — not first-seen order; see the
counterexample.) -/
theorem c6_amended_users_first_seen (log : List Interaction) :
    reAllUsers log = firstSeenDedup (log.map Interaction.user_id) := by
  have h := keys_foldl_dictSet (V := List (ℕ × ℚ))
    (fun it : Interaction => it.user_id)
    (fun d it => dictSet ((dictGet d it.user_id).getD []) it.post_id it.rating) log []
  have hstep : log.foldl
      (fun d it =>
        dictSet d it.user_id (dictSet ((dictGet d it.user_id).getD []) it.post_id it.rating))
      [] = buildUserPosts log := rfl
  rw [hstep] at h
  rw [reAllUsers, h]
  simp [keys]

/-- **C1** counterexample: user 1 has interaction weight 1 on post 3, yet
the `RecommendationEngine` collaborative filter (user present in the
index, any similarity values — here `[1]`) returns post 3: it never
excludes items the user already interacted with.  (The exception fallback
to `get_trending_posts` returns the same list `[3]` on this input.) -/
theorem c1_counterexample :
    3 ∈ reCollabKnown c1Posts [1] 10 ∧ ¬ reRating c1Log 1 3 = 0 :=
  ⟨by decide, by decide⟩

/-- **C1** (amended): the `AdvancedRecommendationSystem` collaborative
filter (ml_models.py) does satisfy the property: every (item index,
score) pair it returns has a zero entry in the target user's matrix row,
for every matrix, user row index, similarity vector and result count. -/
theorem c1_amended_no_interacted_items
    (matrix : List (List ℚ)) (uIdx : ℕ) (sims : List ℚ) (n : ℕ)
    (p : ℕ × ℚ) (hp : p ∈ mmCollabRecs matrix uIdx sims n) :
    (matrix.getD uIdx []).getD p.1 0 = 0 := by
  simp only [mmCollabRecs] at hp
  have hp1 := List.mem_of_mem_take hp
  rw [mem_sortByKeyDesc] at hp1
  obtain ⟨i, _, heq⟩ := List.mem_filterMap.mp hp1
  by_cases hz : (matrix.getD uIdx []).getD i 0 = 0
  · rw [if_pos hz] at heq
    obtain rfl := Option.some_inj.mp heq
    simpa using hz
  · rw [if_neg hz] at heq
    exact absurd heq (by simp)

theorem c1_amended_no_interacted_items_witness :
    (([[0]] : List (List ℚ)).getD 0 []).getD 0 0 = 0 :=
  c1_amended_no_interacted_items [[0]] 0 [1] 1 (0, ([] : List ℚ).sum) (by decide)

/-- **C4** counterexample: `get_trending_posts` does not leave its input
post records unchanged — after the call the post dict has gained an
`engagement_score` key. -/
theorem c4_counterexample :
    ¬ (getTrendingPosts [c4Post] 0 10).2 = [c4Post] := by decide

theorem trendingLoop_ok (now : ℤ) :
    ∀ (posts : List Post), (∀ p ∈ posts, ¬ daysOld now p.created_at = -10) →
      trendingLoop now posts
        = (posts.map (fun p => { p with engagement_score := engagementScoreOf p now }),
            true) := by
  intro posts
  induction posts with
  | nil => intro _; rfl
  | cons p rest ih =>
    intro hok
    have hd : ¬ daysOld now p.created_at = -10 := hok p (List.mem_cons_self _ _)
    have hrest := ih (fun q hq => hok q (List.mem_cons_of_mem _ hq))
    simp only [trendingLoop, engagementScoreOf, if_neg hd, hrest, List.map_cons]

theorem trendingLoop_err (now : ℤ) :
    ∀ (pre : List Post) (p : Post) (rest : List Post),
      (∀ q ∈ pre, ¬ daysOld now q.created_at = -10) →
      daysOld now p.created_at = -10 →
      trendingLoop now (pre ++ p :: rest)
        = (pre.map (fun q => { q with engagement_score := engagementScoreOf q now })
            ++ p :: rest, false) := by
  intro pre
  induction pre with
  | nil =>
    intro p rest _ hp
    simp only [List.nil_append, trendingLoop, engagementScoreOf, if_pos hp,
      List.map_nil]
  | cons q pre' ih =>
    intro p rest hok hp
    have hq : ¬ daysOld now q.created_at = -10 := hok q (List.mem_cons_self _ _)
    have hrec := ih p rest (fun r hr => hok r (List.mem_cons_of_mem _ hr)) hp
    simp only [List.cons_append, trendingLoop, engagementScoreOf, if_neg hq,
      List.append_eq, hrec, List.map_cons]

/-- **C4** (amended): when no post's score computation raises
(`days_old ≠ -10` for every post), `get_trending_posts` computes its
ranked id list as a function of its inputs but mutates every input post
record by writing the `engagement_score` field; the returned ids are the
ids of a permutation of the (mutated) posts sorted by engagement score
descending, truncated to `k`.  When some post raises (`days_old = -10`,
a `ZeroDivisionError` in the float division), the `except` handler
returns the ids of the first `k` posts in original, unranked order, with
exactly the records before the raising one mutated. -/
theorem c4_amended_trending_mutates (posts : List Post) (now : ℤ) (k : ℕ) :
    ((∀ p ∈ posts, ¬ daysOld now p.created_at = -10) →
      (getTrendingPosts posts now k).2
          = posts.map (fun p => { p with engagement_score := engagementScoreOf p now }) ∧
      (∀ p ∈ posts, (engagementScoreOf p now).isSome = true) ∧
      (getTrendingPosts posts now k).1.length = min k posts.length ∧
      (∀ x ∈ (getTrendingPosts posts now k).1, x ∈ posts.map Post.id) ∧
      (∃ l, List.Perm l (getTrendingPosts posts now k).2 ∧
        l.Pairwise (fun p q => (q.engagement_score).getD 0 ≤ (p.engagement_score).getD 0) ∧
        (getTrendingPosts posts now k).1 = (l.take k).map Post.id)) ∧
    (∀ (pre : List Post) (p : Post) (rest : List Post), posts = pre ++ p :: rest →
      (∀ q ∈ pre, ¬ daysOld now q.created_at = -10) →
      daysOld now p.created_at = -10 →
      (getTrendingPosts posts now k).2
          = pre.map (fun q => { q with engagement_score := engagementScoreOf q now })
              ++ p :: rest ∧
      (getTrendingPosts posts now k).1
          = (((getTrendingPosts posts now k).2).take k).map Post.id) := by
  constructor
  · intro hok
    have hloop := trendingLoop_ok now posts hok
    have hgtp : getTrendingPosts posts now k
        = (((sortByKeyDesc (fun p => (p.engagement_score).getD 0)
              (posts.map (fun p => { p with engagement_score := engagementScoreOf p now }))).take
                k).map Post.id,
            posts.map (fun p => { p with engagement_score := engagementScoreOf p now })) := by
      rw [getTrendingPosts, hloop]
      rfl
    refine ⟨by rw [hgtp], ?_, ?_, ?_, ?_⟩
    · intro p hp
      rw [engagementScoreOf, if_neg (hok p hp)]
      rfl
    · rw [hgtp]
      simp only [List.length_map, List.length_take, sortByKeyDesc_length]
    · intro x hx
      rw [hgtp] at hx
      obtain ⟨p', hp', rfl⟩ := List.mem_map.mp hx
      have hp'' := List.mem_of_mem_take hp'
      rw [mem_sortByKeyDesc] at hp''
      obtain ⟨q, hq, rfl⟩ := List.mem_map.mp hp''
      exact List.mem_map.mpr ⟨q, hq, rfl⟩
    · rw [hgtp]
      exact ⟨_, sortByKeyDesc_perm _ _,
        sortByKeyDesc_pairwise (fun p : Post => (p.engagement_score).getD 0) _, rfl⟩
  · intro pre p rest hsplit hpre hp
    subst hsplit
    have hloop := trendingLoop_err now pre p rest hpre hp
    have hgtp : getTrendingPosts (pre ++ p :: rest) now k
        = (((pre.map (fun q : Post => { q with engagement_score := engagementScoreOf q now })
              ++ p :: rest).take k).map Post.id,
            pre.map (fun q : Post => { q with engagement_score := engagementScoreOf q now })
              ++ p :: rest) := by
      rw [getTrendingPosts, hloop]
      rfl
    rw [hgtp]
    exact ⟨rfl, rfl⟩

theorem c4_amended_trending_mutates_witness :
    (getTrendingPosts [c4Post] 0 10).2
      = [c4Post].map (fun p => { p with engagement_score := engagementScoreOf p 0 }) :=
  ((c4_amended_trending_mutates [c4Post] 0 10).1 (by decide)).1

theorem dictGet_addRankScores (w : ℚ) (n : ℕ) :
    ∀ (recs : List ℕ) (idx : ℕ) (d : List (ℕ × ℚ)) (x : ℕ), recs.Nodup →
      dictGet (addRankScores w n idx recs d) x
        = if x ∈ recs
          then some ((dictGet d x).getD 0
              + w * (1 - ((idx + posIn x recs : ℕ) : ℚ) / (n : ℚ)))
          else dictGet d x := by
  intro recs
  induction recs with
  | nil => intro idx d x _; simp [addRankScores]
  | cons pid rest ih =>
    intro idx d x hnd
    obtain ⟨hpid, hrest⟩ := List.nodup_cons.mp hnd
    rw [addRankScores, ih (idx + 1) _ x hrest]
    by_cases hx : x = pid
    · subst hx
      rw [if_neg hpid, if_pos (List.mem_cons_self _ _), dictGet_dictSet_self]
      simp [posIn]
    · rw [dictGet_dictSet_ne _ _ hx]
      by_cases hm : x ∈ rest
      · rw [if_pos hm, if_pos (List.mem_cons_of_mem _ hm)]
        have : (idx + 1 + posIn x rest : ℕ) = (idx + posIn x (pid :: rest) : ℕ) := by
          simp [posIn, hx]
          omega
        rw [this]
      · rw [if_neg hm, if_neg (by simp [hx, hm])]

theorem addRankScores_eq_foldl (w : ℚ) (n : ℕ) :
    ∀ (recs : List ℕ) (idx : ℕ) (d : List (ℕ × ℚ)),
      addRankScores w n idx recs d
        = (recs.enumFrom idx).foldl
            (fun d pr => dictSet d pr.2 ((dictGet d pr.2).getD 0 + w * (1 - (pr.1 : ℚ) / (n : ℚ))))
            d := by
  intro recs
  induction recs with
  | nil => intro idx d; rfl
  | cons pid rest ih =>
    intro idx d
    rw [addRankScores, List.enumFrom_cons, List.foldl_cons, ih]

theorem keys_addRankScores (w : ℚ) (n : ℕ) (recs : List ℕ) (idx : ℕ) (d : List (ℕ × ℚ)) :
    keys (addRankScores w n idx recs d)
      = keys d ++ firstSeenDedup (recs.filter (fun x => ¬ x ∈ keys d)) := by
  rw [addRankScores_eq_foldl]
  have h := keys_foldl_dictSet (V := ℚ) (Prod.snd : ℕ × ℕ → ℕ)
    (fun d pr => (dictGet d pr.2).getD 0 + w * (1 - (pr.1 : ℚ) / (n : ℚ)))
    (recs.enumFrom idx) d
  rw [h, List.enumFrom_map_snd]

theorem firstSeenDedup_append_aux {K : Type} [DecidableEq K] :
    ∀ (nn : ℕ) (c1 c2 : List K), c1.length ≤ nn →
      firstSeenDedup (c1 ++ c2)
        = firstSeenDedup c1 ++ firstSeenDedup (c2.filter (fun y => ¬ y ∈ c1)) := by
  intro nn
  induction nn with
  | zero =>
    intro c1 c2 h
    rw [List.length_eq_zero.mp (Nat.le_zero.mp h)]
    simp [firstSeenDedup_nil]
  | succ nn ih =>
    intro c1 c2 h
    match c1 with
    | [] => simp [firstSeenDedup_nil]
    | x :: xs =>
      have hlen : (xs.filter (fun y => ¬ y = x)).length ≤ nn :=
        le_trans (List.length_filter_le _ xs) (Nat.lt_succ_iff.mp h)
      rw [List.cons_append, firstSeenDedup_cons, List.filter_append,
        ih _ _ hlen, firstSeenDedup_cons]
      have hfe : (c2.filter (fun y => ¬ y = x)).filter
            (fun y => ¬ y ∈ xs.filter (fun z => ¬ z = x))
          = c2.filter (fun y => ¬ y ∈ x :: xs) := by
        rw [List.filter_filter]
        apply List.filter_congr
        intro y _
        by_cases h1 : y = x <;> by_cases h2 : y ∈ xs <;> simp [h1, h2]
      rw [hfe, List.cons_append]

theorem firstSeenDedup_append {K : Type} [DecidableEq K] (c1 c2 : List K) :
    firstSeenDedup (c1 ++ c2)
      = firstSeenDedup c1 ++ firstSeenDedup (c2.filter (fun y => ¬ y ∈ c1)) :=
  firstSeenDedup_append_aux c1.length c1 c2 (le_refl _)

/-- **C3**: for every pair of duplicate-free ranked input lists, the
hybrid merge scores an item with the 0.6-weighted collaborative
positional term plus the 0.4-weighted content term, each absent list
contributing 0; every output item comes from one of the two input lists;
the output is ordered by combined score descending; its length is `k`
capped by the number of distinct input items; and it is the top of the
ranking: every input item left out scores no higher than any returned
item. -/
theorem c3_hybrid_merge (collab content : List ℕ) (k : ℕ)
    (h1 : collab.Nodup) (h2 : content.Nodup) :
    (∀ x ∈ hybridMerge collab content k, x ∈ collab ∨ x ∈ content) ∧
    (∀ x, x ∈ collab ∨ x ∈ content →
      dictGet (hybridMergeScores collab content) x
        = some ((if x ∈ collab
              then (6/10) * (1 - ((posIn x collab : ℕ) : ℚ) / (collab.length : ℚ)) else 0)
            + (if x ∈ content
              then (4/10) * (1 - ((posIn x content : ℕ) : ℚ) / (content.length : ℚ)) else 0))) ∧
    List.Pairwise (fun a b =>
        (dictGet (hybridMergeScores collab content) b).getD 0
          ≤ (dictGet (hybridMergeScores collab content) a).getD 0)
      (hybridMerge collab content k) ∧
    (hybridMerge collab content k).length
      = min k (firstSeenDedup (collab ++ content)).length ∧
    (∀ x, x ∈ collab ∨ x ∈ content → ¬ x ∈ hybridMerge collab content k →
      ∀ y ∈ hybridMerge collab content k,
        (dictGet (hybridMergeScores collab content) x).getD 0
          ≤ (dictGet (hybridMergeScores collab content) y).getD 0) := by
  have hbase : ∀ x : ℕ, dictGet (addRankScores (6/10) collab.length 0 collab []) x
      = if x ∈ collab
        then some ((6/10) * (1 - ((posIn x collab : ℕ) : ℚ) / (collab.length : ℚ)))
        else none := by
    intro x
    rw [dictGet_addRankScores _ _ collab 0 [] x h1]
    by_cases hx : x ∈ collab
    · rw [if_pos hx, if_pos hx]
      simp [dictGet]
    · rw [if_neg hx, if_neg hx]
      rfl
  have hfull : ∀ x : ℕ, dictGet (hybridMergeScores collab content) x
      = if (x ∈ collab ∨ x ∈ content)
        then some ((if x ∈ collab
              then (6/10) * (1 - ((posIn x collab : ℕ) : ℚ) / (collab.length : ℚ)) else 0)
            + (if x ∈ content
              then (4/10) * (1 - ((posIn x content : ℕ) : ℚ) / (content.length : ℚ)) else 0))
        else none := by
    intro x
    rw [hybridMergeScores, dictGet_addRankScores _ _ content 0 _ x h2, hbase x]
    by_cases hc2 : x ∈ content <;> by_cases hc1 : x ∈ collab
    · rw [if_pos hc2, if_pos hc1, if_pos (Or.inl hc1), if_pos hc1, if_pos hc2]
      simp
    · rw [if_pos hc2, if_neg hc1, if_pos (Or.inr hc2), if_neg hc1, if_pos hc2]
      simp
    · rw [if_neg hc2, if_pos hc1, if_pos (Or.inl hc1), if_pos hc1, if_neg hc2]
      simp
    · rw [if_neg hc2, if_neg hc1, if_neg (by simp [hc1, hc2])]
  have hkeys : keys (hybridMergeScores collab content)
      = firstSeenDedup collab ++ firstSeenDedup (content.filter (fun y => ¬ y ∈ collab)) := by
    rw [hybridMergeScores]
    simp only [keys_addRankScores]
    simp [keys, mem_firstSeenDedup]
  have hmem : ∀ x ∈ hybridMerge collab content k, x ∈ collab ∨ x ∈ content := by
    intro x hx
    rw [hybridMerge] at hx
    obtain ⟨pr, hpr, rfl⟩ := List.mem_map.mp hx
    have hpr2 := List.mem_of_mem_take hpr
    rw [mem_sortByKeyDesc] at hpr2
    have hk : pr.1 ∈ keys (hybridMergeScores collab content) :=
      List.mem_map_of_mem Prod.fst hpr2
    rw [hkeys] at hk
    rcases List.mem_append.mp hk with hk | hk
    · exact Or.inl ((mem_firstSeenDedup _ _).mp hk)
    · have hm := (mem_firstSeenDedup _ _).mp hk
      have := (List.mem_filter.mp hm).1
      exact Or.inr this
  have hnodup : (keys (hybridMergeScores collab content)).Nodup := by
    rw [hkeys]
    refine List.Nodup.append (nodup_firstSeenDedup _) (nodup_firstSeenDedup _) ?_
    intro x hx1 hx2
    have h1' := (mem_firstSeenDedup _ _).mp hx1
    have h2' := (mem_firstSeenDedup _ _).mp hx2
    have := (List.mem_filter.mp h2').2
    simp at this
    exact this h1'
  refine ⟨hmem, ?_, ?_, ?_, ?_⟩
  · intro x hx
    rw [hfull x, if_pos hx]
  · have hs := sortByKeyDesc_pairwise (Prod.snd : ℕ × ℚ → ℚ) (hybridMergeScores collab content)
    have hs2 := List.Pairwise.sublist (List.take_sublist k _) hs
    have hs3 := hs2.imp_of_mem (S := fun a b : ℕ × ℚ =>
        (dictGet (hybridMergeScores collab content) b.1).getD 0
          ≤ (dictGet (hybridMergeScores collab content) a.1).getD 0) (by
      intro a b ha hb hab
      have ha' := (mem_sortByKeyDesc _ _ _).mp (List.mem_of_mem_take ha)
      have hb' := (mem_sortByKeyDesc _ _ _).mp (List.mem_of_mem_take hb)
      obtain ⟨a1, a2⟩ := a
      obtain ⟨b1, b2⟩ := b
      rw [dictGet_of_mem_nodup _ _ _ hnodup ha', dictGet_of_mem_nodup _ _ _ hnodup hb']
      exact hab)
    rw [hybridMerge, List.pairwise_map]
    exact hs3
  · rw [hybridMerge, List.length_map, List.length_take, sortByKeyDesc_length]
    have hlenk : (hybridMergeScores collab content).length
        = (keys (hybridMergeScores collab content)).length := (List.length_map _ _).symm
    rw [hlenk, hkeys, firstSeenDedup_append]
  · intro x hx hnotin y hy
    have hgx := hfull x
    rw [if_pos hx] at hgx
    obtain ⟨v, hv⟩ : ∃ v, dictGet (hybridMergeScores collab content) x = some v := ⟨_, hgx⟩
    have hpx : (x, v) ∈ hybridMergeScores collab content := dictGet_some_mem _ _ _ hv
    have hmem_sorted : (x, v) ∈ sortByKeyDesc Prod.snd (hybridMergeScores collab content) :=
      (mem_sortByKeyDesc _ _ _).mpr hpx
    have hsplit : (x, v) ∈ (sortByKeyDesc Prod.snd (hybridMergeScores collab content)).take k
        ∨ (x, v) ∈ (sortByKeyDesc Prod.snd (hybridMergeScores collab content)).drop k := by
      rw [← List.mem_append, List.take_append_drop]
      exact hmem_sorted
    rcases hsplit with htk | hdk
    · exact absurd (by
        rw [hybridMerge]
        exact List.mem_map.mpr ⟨(x, v), htk, rfl⟩) hnotin
    · rw [hybridMerge] at hy
      obtain ⟨py, hpy, rfl⟩ := List.mem_map.mp hy
      have hsorted' : List.Pairwise (fun a b : ℕ × ℚ => Prod.snd b ≤ Prod.snd a)
          ((sortByKeyDesc Prod.snd (hybridMergeScores collab content)).take k
            ++ (sortByKeyDesc Prod.snd (hybridMergeScores collab content)).drop k) := by
        rw [List.take_append_drop]
        exact sortByKeyDesc_pairwise Prod.snd _
      have hcross := (List.pairwise_append.mp hsorted').2.2 py hpy (x, v) hdk
      have hpy_mem : py ∈ hybridMergeScores collab content :=
        (mem_sortByKeyDesc _ _ _).mp (List.mem_of_mem_take hpy)
      obtain ⟨py1, py2⟩ := py
      rw [hv, dictGet_of_mem_nodup _ _ _ hnodup hpy_mem]
      simp only [Option.getD_some]
      exact hcross

theorem c3_hybrid_merge_witness :
    (hybridMerge [1, 2] [2, 3] 10).length
      = min 10 (firstSeenDedup ([1, 2] ++ [2, 3])).length :=
  (c3_hybrid_merge [1, 2] [2, 3] 10 (by decide) (by decide)).2.2.2.1

theorem dictGet_foldl_bumpHour :
    ∀ (l : List ℕ) (d : List (ℕ × ℕ)) (h : ℕ),
      dictGet (l.foldl bumpHour d) h
        = if h ∈ l then some ((dictGet d h).getD 0 + l.count h)
          else dictGet d h := by
  intro l
  induction l with
  | nil => intro d h; simp
  | cons a t ih =>
    intro d h
    rw [List.foldl_cons, ih]
    by_cases hha : h = a
    · subst hha
      rw [if_pos (List.mem_cons_self _ _)]
      by_cases hm : h ∈ t
      · rw [if_pos hm, bumpHour, dictGet_dictSet_self]
        simp [List.count_cons_self]
        omega
      · rw [if_neg hm, bumpHour, dictGet_dictSet_self]
        have hz : t.count h = 0 := List.count_eq_zero.mpr hm
        simp [List.count_cons_self, hz]
    · rw [bumpHour, dictGet_dictSet_ne _ _ hha]
      by_cases hm : h ∈ t
      · rw [if_pos hm, if_pos (List.mem_cons_of_mem _ hm)]
        have : (a :: t).count h = t.count h := by
          simp [List.count_cons, hha]
        rw [this]
      · rw [if_neg hm, if_neg (by simp [hha, hm])]

theorem keys_buildActiveHours (hours : List ℕ) :
    keys (buildActiveHours hours) = firstSeenDedup hours := by
  have h := keys_foldl_dictSet (V := ℕ) (fun a : ℕ => a)
    (fun d a => (dictGet d a).getD 0 + 1) hours []
  have hstep : hours.foldl
      (fun d a => dictSet d a ((dictGet d a).getD 0 + 1)) [] = buildActiveHours hours := rfl
  rw [hstep] at h
  rw [h]
  simp [keys]

/-- The hour-count dict holds exactly the number of log actions at that
hour. -/
theorem dictGet_buildActiveHours (hours : List ℕ) (h : ℕ) :
    dictGet (buildActiveHours hours) h
      = if h ∈ hours then some (hours.count h) else none := by
  rw [buildActiveHours, dictGet_foldl_bumpHour]
  simp [dictGet]

theorem pair_sublist_of_get {α : Type} :
    ∀ (l : List α) (i j : ℕ) (hij : i < j) (hj : j < l.length),
      List.Sublist [l.get ⟨i, lt_trans hij hj⟩, l.get ⟨j, hj⟩] l := by
  intro l
  induction l with
  | nil => intro i j hij hj; simp at hj
  | cons a t ih =>
    intro i j hij hj
    match i, j with
    | 0, j' + 1 =>
      refine List.Sublist.cons₂ a ?_
      refine List.singleton_sublist.mpr ?_
      exact t.get_mem _ _
    | i' + 1, j' + 1 =>
      exact List.Sublist.cons a
        (ih i' j' (Nat.lt_of_succ_lt_succ hij) (Nat.lt_of_succ_lt_succ hj))

theorem not_pair_sublist_both {α : Type} :
    ∀ (l : List α), l.Nodup → ∀ (a b : α), ¬ a = b →
      List.Sublist [a, b] l → List.Sublist [b, a] l → False := by
  intro l
  induction l with
  | nil => intro _ a b _ h1 _; simp at h1
  | cons c t ih =>
    intro hnd a b hab h1 h2
    obtain ⟨hc, ht⟩ := List.nodup_cons.mp hnd
    cases h1 with
    | cons _ h1' =>
      cases h2 with
      | cons _ h2' => exact ih ht a b hab h1' h2'
      | cons₂ _ h2' =>
        exact hc (List.Sublist.subset h1' (show c ∈ [a, c] by simp))
    | cons₂ _ h1' =>
      cases h2 with
      | cons _ h2' =>
        exact hc (List.Sublist.subset h2' (show c ∈ [b, c] by simp))
      | cons₂ _ h2' => exact hab rfl

theorem posIn_map_fst {β : Type} :
    ∀ (d : List (ℕ × β)), (d.map Prod.fst).Nodup →
      ∀ (i : ℕ) (hi : i < d.length),
        posIn (d.get ⟨i, hi⟩).1 (d.map Prod.fst) = i := by
  intro d
  induction d with
  | nil => intro _ i hi; simp at hi
  | cons p t ih =>
    intro hnd i hi
    rw [List.map_cons] at hnd
    obtain ⟨hp, ht⟩ := List.nodup_cons.mp hnd
    match i with
    | 0 => simp [posIn]
    | i' + 1 =>
      have hi' : i' < t.length := Nat.lt_of_succ_lt_succ hi
      have hne : ¬ (t.get ⟨i', hi'⟩).1 = p.1 := by
        intro he
        exact hp (he ▸ List.mem_map_of_mem Prod.fst (t.get_mem _ _))
      simp only [List.map_cons, List.get_cons_succ, posIn, if_neg hne]
      rw [ih ht i' hi']

/-- Stability of the stable descending sort on position-tagged entries:
when entry `i` of the input is `(i, payload)`, an entry precedes another
in the output exactly when its count is strictly larger, or the counts
tie and its original position is smaller. -/
theorem pairwise_lex_insertionSort (el : List (ℕ × (ℕ × ℕ)))
    (hnd : el.Nodup)
    (hpos : ∀ (i : ℕ) (hi : i < el.length), (el.get ⟨i, hi⟩).1 = i) :
    (el.insertionSort (fun a b : ℕ × (ℕ × ℕ) => b.2.2 ≤ a.2.2)).Pairwise
      (fun a b : ℕ × (ℕ × ℕ) => b.2.2 < a.2.2 ∨ (a.2.2 = b.2.2 ∧ a.1 < b.1)) := by
  have ht : IsTotal (ℕ × (ℕ × ℕ)) (fun a b => b.2.2 ≤ a.2.2) :=
    ⟨fun a b => (le_total b.2.2 a.2.2).elim Or.inl Or.inr⟩
  have htr : IsTrans (ℕ × (ℕ × ℕ)) (fun a b => b.2.2 ≤ a.2.2) :=
    ⟨fun _ _ _ h1 h2 => le_trans h2 h1⟩
  have hsorted := List.sorted_insertionSort
    (fun a b : ℕ × (ℕ × ℕ) => b.2.2 ≤ a.2.2) el
  have hndsorted :
      (el.insertionSort (fun a b : ℕ × (ℕ × ℕ) => b.2.2 ≤ a.2.2)).Nodup :=
    ((List.perm_insertionSort _ el).nodup_iff).mpr hnd
  have hat : ∀ a ∈ el, ∃ hlt : a.1 < el.length,
      ∀ (hh : a.1 < el.length), el.get ⟨a.1, hh⟩ = a := by
    intro a ha
    obtain ⟨⟨nv, hn⟩, hget⟩ := List.get_of_mem ha
    have h1 : a.1 = nv := by rw [← hget]; exact hpos nv hn
    cases h1
    exact ⟨hn, fun hh => hget⟩
  rw [List.pairwise_iff_get]
  intro i j hij
  have hr := List.pairwise_iff_get.mp hsorted i j hij
  have hne := List.pairwise_iff_get.mp hndsorted i j hij
  have hmema : (el.insertionSort (fun a b : ℕ × (ℕ × ℕ) => b.2.2 ≤ a.2.2)).get i ∈ el := by
    rw [← List.mem_insertionSort (fun a b : ℕ × (ℕ × ℕ) => b.2.2 ≤ a.2.2)]
    exact List.get_mem _ _ _
  have hmemb : (el.insertionSort (fun a b : ℕ × (ℕ × ℕ) => b.2.2 ≤ a.2.2)).get j ∈ el := by
    rw [← List.mem_insertionSort (fun a b : ℕ × (ℕ × ℕ) => b.2.2 ≤ a.2.2)]
    exact List.get_mem _ _ _
  obtain ⟨hia, hgeta⟩ := hat _ hmema
  obtain ⟨hib, hgetb⟩ := hat _ hmemb
  by_cases heq :
      ((el.insertionSort (fun a b : ℕ × (ℕ × ℕ) => b.2.2 ≤ a.2.2)).get i).2.2
        = ((el.insertionSort (fun a b : ℕ × (ℕ × ℕ) => b.2.2 ≤ a.2.2)).get j).2.2
  · refine Or.inr ⟨heq, ?_⟩
    by_contra hlt
    push_neg at hlt
    rcases Nat.eq_or_lt_of_le hlt with hbeq | hblt
    · apply hne
      have h2 := hgetb
        (show ((el.insertionSort (fun a b : ℕ × (ℕ × ℕ) => b.2.2 ≤ a.2.2)).get j).1
            < el.length from hib)
      rw [← hgeta hia, ← h2]
      congr 1
      exact Fin.mk.injEq .. ▸ hbeq.symm ▸ rfl
    · have hsub1 := pair_sublist_of_get el
        (((el.insertionSort (fun a b : ℕ × (ℕ × ℕ) => b.2.2 ≤ a.2.2)).get j).1)
        (((el.insertionSort (fun a b : ℕ × (ℕ × ℕ) => b.2.2 ≤ a.2.2)).get i).1)
        hblt hia
      rw [hgetb _, hgeta _] at hsub1
      have hr' :
          ((el.insertionSort (fun a b : ℕ × (ℕ × ℕ) => b.2.2 ≤ a.2.2)).get i).2.2
            ≤ ((el.insertionSort (fun a b : ℕ × (ℕ × ℕ) => b.2.2 ≤ a.2.2)).get j).2.2 :=
        le_of_eq heq
      have hsub2 : List.Sublist
          [(el.insertionSort (fun a b : ℕ × (ℕ × ℕ) => b.2.2 ≤ a.2.2)).get j,
            (el.insertionSort (fun a b : ℕ × (ℕ × ℕ) => b.2.2 ≤ a.2.2)).get i]
          (el.insertionSort (fun a b : ℕ × (ℕ × ℕ) => b.2.2 ≤ a.2.2)) :=
        List.pair_sublist_insertionSort hr' hsub1
      have hsubij := pair_sublist_of_get
        (el.insertionSort (fun a b : ℕ × (ℕ × ℕ) => b.2.2 ≤ a.2.2)) i.1 j.1 hij j.2
      exact not_pair_sublist_both _ hndsorted _ _ hne hsubij hsub2
  · exact Or.inl (lt_of_le_of_ne hr fun hh => heq hh.symm)

theorem pairwise_lex_sortedHourEntries (hours : List ℕ) :
    (sortedHourEntries hours).Pairwise
      (fun a b : ℕ × (ℕ × ℕ) => b.2.2 < a.2.2 ∨ (a.2.2 = b.2.2 ∧ a.1 < b.1)) := by
  rw [sortedHourEntries]
  refine pairwise_lex_insertionSort _ ?_ ?_
  · exact List.Nodup.of_map Prod.fst (List.nodup_enum_map_fst _)
  · intro i hi
    rw [List.get_enum]

theorem map_snd_sortedHourEntries (hours : List ℕ) :
    (sortedHourEntries hours).map Prod.snd
      = (buildActiveHours hours).insertionSort (fun a b : ℕ × ℕ => b.2 ≤ a.2) := by
  rw [sortedHourEntries,
    List.map_insertionSort (fun a b : ℕ × (ℕ × ℕ) => b.2.2 ≤ a.2.2)
      (fun a b : ℕ × ℕ => b.2 ≤ a.2) Prod.snd (buildActiveHours hours).enum
      (fun a _ b _ => Iff.rfl)]
  congr 1
  exact List.enumFrom_map_snd 0 (buildActiveHours hours)

/-- **C8** counterexample: a user active once at hour 21 and once at hour
9 (a tie in counts).  The code returns `[21, 9]` (first-seen order of the
hours), while the claim's tie-break by the numerically earlier hour
demands `[9, 21]`. -/
theorem c8_counterexample :
    predictEngagementTime (some [21, 9]) = [21, 9] ∧
    specPredictActiveHours [21, 9] = [9, 21] ∧
    ¬ predictEngagementTime (some [21, 9]) = specPredictActiveHours [21, 9] :=
  ⟨by decide, by decide, by decide⟩

/-- **C8** (amended): `predict_engagement_time` returns the hardcoded
default `[9, 12, 18, 21]` for an unseen user; for a recorded action log
it returns the top 4 hours by action count descending — at most 4 hours,
all occurring in the log, ordered by count descending with ties broken by
the order the hour first appears in the log (not the numerically earlier
hour), and every omitted hour has a count no larger than any returned
hour's count. -/
theorem c8_amended_predict_active_hours :
    predictEngagementTime none = [9, 12, 18, 21] ∧
    (∀ hours : List ℕ,
      (predictEngagementTime (some hours)).length
          = min 4 (firstSeenDedup hours).length ∧
      (∀ h ∈ predictEngagementTime (some hours), h ∈ hours) ∧
      List.Pairwise (fun h1 h2 =>
          hours.count h2 < hours.count h1 ∨
            (hours.count h1 = hours.count h2 ∧
              posIn h1 (firstSeenDedup hours) < posIn h2 (firstSeenDedup hours)))
        (predictEngagementTime (some hours)) ∧
      (∀ h ∈ hours, ¬ h ∈ predictEngagementTime (some hours) →
        ∀ h2 ∈ predictEngagementTime (some hours),
          hours.count h ≤ hours.count h2)) := by
  refine ⟨rfl, ?_⟩
  intro hours
  have hkeysnd : ((buildActiveHours hours).map Prod.fst).Nodup := by
    have hk := keys_buildActiveHours hours
    rw [keys] at hk
    rw [hk]
    exact nodup_firstSeenDedup _
  have hentry : ∀ pr ∈ buildActiveHours hours,
      pr.1 ∈ hours ∧ pr.2 = hours.count pr.1 := by
    intro pr hpr
    have hg : dictGet (buildActiveHours hours) pr.1 = some pr.2 :=
      dictGet_of_mem_nodup _ pr.1 pr.2 hkeysnd hpr
    rw [dictGet_buildActiveHours] at hg
    by_cases hm : pr.1 ∈ hours
    · rw [if_pos hm] at hg
      exact ⟨hm, (Option.some_inj.mp hg).symm⟩
    · rw [if_neg hm] at hg
      exact absurd hg (by simp)
  have hpredict : predictEngagementTime (some hours)
      = ((sortedHourEntries hours).take 4).map (fun x : ℕ × (ℕ × ℕ) => x.2.1) := by
    rw [predictEngagementTime, sortByKeyDesc, ← map_snd_sortedHourEntries,
      ← List.map_take, List.map_map]
    rfl
  have hfacts : ∀ x ∈ (sortedHourEntries hours).take 4,
      x.2.1 ∈ hours ∧ x.2.2 = hours.count x.2.1 ∧
        posIn x.2.1 (firstSeenDedup hours) = x.1 := by
    intro x hx
    have hx2 := List.mem_of_mem_take hx
    rw [sortedHourEntries, List.mem_insertionSort] at hx2
    obtain ⟨n, hget⟩ := List.get_of_mem hx2
    rw [List.get_enum] at hget
    have hx1 : x.1 = n.1 := by rw [← hget]
    have hlt : n.1 < (buildActiveHours hours).length := by
      have hn2 := n.2
      simpa using hn2
    have hx2eq : x.2 = (buildActiveHours hours).get ⟨n.1, hlt⟩ := by
      rw [← hget]
      rfl
    have hxmem : x.2 ∈ buildActiveHours hours := by
      rw [hx2eq]
      exact List.get_mem _ _ _
    obtain ⟨hm, hc⟩ := hentry _ hxmem
    refine ⟨hm, hc, ?_⟩
    rw [← keys_buildActiveHours, keys, hx2eq, hx1]
    exact posIn_map_fst _ hkeysnd n.1 hlt
  refine ⟨?_, ?_, ?_, ?_⟩
  · rw [hpredict, List.length_map, List.length_take, sortedHourEntries,
      List.length_insertionSort, List.enum_length]
    have hl : (buildActiveHours hours).length = (firstSeenDedup hours).length := by
      rw [← keys_buildActiveHours]
      exact (List.length_map _ _).symm
    rw [hl]
  · intro h hh
    rw [hpredict] at hh
    obtain ⟨x, hx, rfl⟩ := List.mem_map.mp hh
    exact (hfacts x hx).1
  · rw [hpredict, List.pairwise_map]
    refine List.Pairwise.imp_of_mem ?_
      (List.Pairwise.sublist (List.take_sublist 4 _) (pairwise_lex_sortedHourEntries hours))
    intro a b ha hb hab
    obtain ⟨_, ha2, ha3⟩ := hfacts a ha
    obtain ⟨_, hb2, hb3⟩ := hfacts b hb
    rcases hab with hcase | ⟨hq, hlt⟩
    · left
      rw [← ha2, ← hb2]
      exact hcase
    · right
      refine ⟨by rw [← ha2, ← hb2]; exact hq, ?_⟩
      rw [ha3, hb3]
      exact hlt
  · intro h hh hnotin h2 hh2
    have hmemhs : (h, hours.count h) ∈ buildActiveHours hours :=
      dictGet_some_mem _ _ _ (by rw [dictGet_buildActiveHours, if_pos hh])
    have hmemmap : (h, hours.count h) ∈ (sortedHourEntries hours).map Prod.snd := by
      rw [map_snd_sortedHourEntries, List.mem_insertionSort]
      exact hmemhs
    obtain ⟨x, hxmem, hxsnd⟩ := List.mem_map.mp hmemmap
    have hxsplit : x ∈ (sortedHourEntries hours).take 4
        ∨ x ∈ (sortedHourEntries hours).drop 4 := by
      rw [← List.mem_append, List.take_append_drop]
      exact hxmem
    rcases hxsplit with hxt | hxd
    · exfalso
      apply hnotin
      rw [hpredict]
      refine List.mem_map.mpr ⟨x, hxt, ?_⟩
      rw [hxsnd]
    · rw [hpredict] at hh2
      obtain ⟨y, hyt, rfl⟩ := List.mem_map.mp hh2
      have hsorted' : List.Pairwise (fun a b : ℕ × (ℕ × ℕ) => b.2.2 ≤ a.2.2)
          ((sortedHourEntries hours).take 4 ++ (sortedHourEntries hours).drop 4) := by
        rw [List.take_append_drop]
        have ht : IsTotal (ℕ × (ℕ × ℕ)) (fun a b => b.2.2 ≤ a.2.2) :=
          ⟨fun a b => (le_total b.2.2 a.2.2).elim Or.inl Or.inr⟩
        have htr : IsTrans (ℕ × (ℕ × ℕ)) (fun a b => b.2.2 ≤ a.2.2) :=
          ⟨fun _ _ _ h1 h2 => le_trans h2 h1⟩
        exact List.sorted_insertionSort _ _
      have hcross := (List.pairwise_append.mp hsorted').2.2 y hyt x hxd
      obtain ⟨_, hy2, _⟩ := hfacts y hyt
      have hx22 : x.2.2 = hours.count h := by rw [hxsnd]
      rw [← hy2, ← hx22]
      exact hcross

theorem c8_amended_predict_active_hours_witness :
    predictEngagementTime none = [9, 12, 18, 21] ∧
    (predictEngagementTime (some [21, 9])).length
      = min 4 (firstSeenDedup [21, 9]).length :=
  ⟨c8_amended_predict_active_hours.1,
    (c8_amended_predict_active_hours.2 [21, 9]).1⟩

end SM
